import Mathlib

/-!
Verification of the comment view-derivation core of the shotsync repository
(`src/components/CommentPanel.tsx`: `getTopLevelComments`, `getReplies`,
`getCommentCounts`).

Modelling conventions for the shallow embedding:
* JavaScript strings are `List Char`; `String.prototype.toLowerCase` is
  `Char.toLower` mapped over the list; `String.prototype.includes` is
  substring containment; `localeCompare` is code-point lexicographic
  comparison returning an `Int` sign.
* `Date` values are their `getTime()` integers (the code only ever compares
  them via `getTime()` subtraction), and media timestamps are `Int`.
* A possibly-`undefined` field is an `Option`; the JS truthiness test
  `!comment.parentId` becomes `Option.isNone`.
* `Array.prototype.sort` with a consistent comparator is a stable sort; it
  is modelled by `jsSort`, a stable insertion sort driven by the comparator.
* `Array.prototype.findIndex` is `jsFindIndex`, returning `-1 : Int` when no
  element matches.
-/

namespace ShotSync

/-- JS strings as lists of characters. -/
abbrev Str := List Char

/-- `String.prototype.toLowerCase`, modelled per character. -/
def strToLower (s : Str) : Str := s.map Char.toLower

/-- Does `l` start with `sub`? (helper for substring containment). -/
def startsWithList : Str → Str → Bool
  | _, [] => true
  | [], _ :: _ => false
  | a :: as, b :: bs => a == b && startsWithList as bs

/-- `String.prototype.includes`: `sub` occurs contiguously in `l`. -/
def containsSub : Str → Str → Bool
  | [], sub => sub.isEmpty
  | a :: as, sub => startsWithList (a :: as) sub || containsSub as sub

/-- Code-point lexicographic three-way comparison; the model of
`String.prototype.localeCompare` used by the `commenter` sort. -/
def listCmp : Str → Str → Int
  | [], [] => 0
  | [], _ :: _ => -1
  | _ :: _, [] => 1
  | a :: as, b :: bs => if a < b then -1 else if b < a then 1 else listCmp as bs

/-- One attachment record (`{url, type, name}` in `CommentPanel.tsx`). -/
structure Attachment where
  url : Str
  type : Str
  name : Str
deriving DecidableEq, Repr

/-- The `Comment` record from `pages/Index.tsx` as used by the panel:
`createdAt` is the `Date.getTime()` integer, `timestamp` the media time in
seconds (negative = general comment), `parentId`/`attachments` optional. -/
structure Comment where
  id : Str
  parentId : Option Str
  text : Str
  author : Str
  createdAt : Int
  timestamp : Int
  attachments : Option (List Attachment)
  hasDrawing : Bool
deriving DecidableEq, Repr

/-- The six advanced-filter toggles of `CommentFilterMenu`. -/
structure CommentFilters where
  annotations : Bool
  attachments : Bool
  completed : Bool
  incomplete : Bool
  unread : Bool
  mentionsAndReactions : Bool
deriving DecidableEq, Repr

/-- Output element of `getTopLevelComments`: the spread-copy
`{ ...comment, commentNumber }`. -/
structure NumberedComment where
  base : Comment
  commentNumber : Int
deriving DecidableEq, Repr

/-- `!comment.parentId` — no parent means top-level. -/
def isTopLevel (c : Comment) : Bool := c.parentId.isNone

/-- `comment.text.includes('internal')`, the case-sensitive content
heuristic used by the type filter and the counts. -/
def textHasInternal (c : Comment) : Bool := containsSub c.text "internal".toList

/-- The search predicate:
`text.toLowerCase().includes(term.toLowerCase()) ||
 author.toLowerCase().includes(term.toLowerCase())`. -/
def searchPass (s : Str) (c : Comment) : Bool :=
  containsSub (strToLower c.text) (strToLower s) ||
    containsSub (strToLower c.author) (strToLower s)

/-- `comment.attachments && comment.attachments.length > 0`. -/
def hasAttachments (c : Comment) : Bool :=
  match c.attachments with
  | some l => decide (0 < l.length)
  | none => false

/-- Stable insertion of `a` into `l`: `a` goes before the first element `b`
with `cmp a b < 0`, hence after every element it ties with. -/
def insertCmp (cmp : α → α → Int) (a : α) : List α → List α
  | [] => [a]
  | b :: bs => if cmp a b < 0 then a :: b :: bs else b :: insertCmp cmp a bs

/-- Left fold of stable insertions; `acc` is the already-sorted output. -/
def sortAux (cmp : α → α → Int) : List α → List α → List α
  | acc, [] => acc
  | acc, a :: as => sortAux cmp (insertCmp cmp a acc) as

/-- Model of `Array.prototype.sort(cmp)` for a consistent comparator:
a stable sort w.r.t. the order induced by the comparator's sign. -/
def jsSort (cmp : α → α → Int) (l : List α) : List α := sortAux cmp [] l

/-- Model of `Array.prototype.findIndex`: index of the first match as an
`Int`, `-1` when there is none. -/
def jsFindIndex (p : α → Bool) : List α → Int
  | [] => -1
  | a :: as =>
    if p a then 0
    else
      let r := jsFindIndex p as
      if r < 0 then -1 else r + 1

/-- The comparator chosen by the `switch (sortBy)` in `getTopLevelComments`;
every string other than the three named options falls to the
`case 'timecode': default:` branch. -/
def commentCmp (sortBy : Str) (a b : Comment) : Int :=
  if sortBy = "oldest".toList then a.createdAt - b.createdAt
  else if sortBy = "newest".toList then b.createdAt - a.createdAt
  else if sortBy = "commenter".toList then listCmp a.author b.author
  else a.timestamp - b.timestamp

/-- The filtering pipeline of `getTopLevelComments` (steps before the sort):
top-level selection, then — each conditionally — search, type filter and the
attachments toggle, exactly as the successive `filteredComments =` rebindings. -/
def filteredTopLevel (comments : List Comment) (searchTerm : Str)
    (selectedCommentType : Str) (filters : CommentFilters) : List Comment :=
  let f0 := comments.filter fun c => isTopLevel c
  let f1 := if searchTerm = [] then f0 else f0.filter fun c => searchPass searchTerm c
  let f2 :=
    if selectedCommentType = "public".toList then f1.filter fun c => !(textHasInternal c)
    else if selectedCommentType = "internal".toList then f1.filter fun c => textHasInternal c
    else f1
  if filters.attachments then f2.filter fun c => hasAttachments c else f2

/-- The numbering pass `allTopLevelByTimestamp`: unfiltered top-level
comments with `timestamp >= 0`, sorted ascending by `timestamp`. -/
def numberingList (comments : List Comment) : List Comment :=
  jsSort (fun a b => a.timestamp - b.timestamp)
    (comments.filter fun c => isTopLevel c && decide (0 ≤ c.timestamp))

/-- `findIndex(c => c.id === comment.id) + 1` over the numbering pass. -/
def numberOf (comments : List Comment) (i : Str) : Int :=
  jsFindIndex (fun x => x.id == i) (numberingList comments) + 1

/-- `getTopLevelComments` (CommentPanel.tsx, lines 117–167): filter, sort by
the selected comparator, then annotate each survivor with its number from
the independent numbering pass. Also called `deriveTopLevelView` in the spec. -/
def getTopLevelComments (comments : List Comment) (searchTerm : Str)
    (selectedCommentType : Str) (filters : CommentFilters) (sortBy : Str) :
    List NumberedComment :=
  (jsSort (commentCmp sortBy) (filteredTopLevel comments searchTerm selectedCommentType filters)).map
    fun c => { base := c, commentNumber := numberOf comments c.id }

/-- Spec name for `getTopLevelComments`. -/
abbrev deriveTopLevelView := @getTopLevelComments

/-- `getReplies` (lines 169–171): `comments.filter(c => c.parentId === parentId)`. -/
def getRepliesOp (comments : List Comment) (parentId : Str) : List Comment :=
  comments.filter fun c => c.parentId == some parentId

/-- Spec name for `getRepliesOp`. -/
abbrev repliesOf := @getRepliesOp

/-- Result record of `getCommentCounts`. -/
structure CommentCounts where
  all : Nat
  public : Nat
  internal : Nat
deriving DecidableEq, Repr

/-- `getCommentCounts` (lines 173–180). -/
def getCommentCounts (comments : List Comment) : CommentCounts :=
  let topLevel := comments.filter fun c => isTopLevel c
  { all := topLevel.length
    public := (topLevel.filter fun c => !(textHasInternal c)).length
    internal := (topLevel.filter fun c => textHasInternal c).length }

/-- Spec name for `getCommentCounts`. -/
abbrev countsByType := @getCommentCounts

/-- Per-element reading of the type-filter stage (`public` excludes texts
containing `internal`, `internal` keeps them, anything else keeps all). -/
def typePass (t : Str) (c : Comment) : Bool :=
  if t = "public".toList then !(textHasInternal c)
  else if t = "internal".toList then textHasInternal c
  else true

/-- Per-element reading of the advanced-filter stage. -/
def attachPass (f : CommentFilters) (c : Comment) : Bool :=
  if f.attachments then hasAttachments c else true

/-- Scenario comment `id:1` of spec §8 (`timestamp 5`, author Bob). -/
def cA1 : Comment :=
  { id := "1".toList, parentId := none, text := "hello".toList,
    author := "Bob".toList, createdAt := 100, timestamp := 5,
    attachments := none, hasDrawing := false }

/-- Scenario comment `id:2` of spec §8 (`timestamp 2`, author Amy,
text containing `internal`). -/
def cA2 : Comment :=
  { id := "2".toList, parentId := none, text := "internal note".toList,
    author := "Amy".toList, createdAt := 200, timestamp := 2,
    attachments := none, hasDrawing := false }

/-- Scenario general comment `id:3` of spec §8 (`timestamp -1`). -/
def cA3 : Comment :=
  { id := "3".toList, parentId := none, text := "general".toList,
    author := "Cal".toList, createdAt := 300, timestamp := -1,
    attachments := none, hasDrawing := false }

/-- Scenario A collection. -/
def scA : List Comment := [cA1, cA2]

/-- Scenario C collection: Scenario A plus a general comment. -/
def scC : List Comment := [cA1, cA2, cA3]

/-- All six advanced-filter toggles off (the panel's initial state). -/
def f0 : CommentFilters :=
  { annotations := false, attachments := false, completed := false,
    incomplete := false, unread := false, mentionsAndReactions := false }

/-! ### Laws of a consistent JS comparator, and the stable sort -/

/-- The consistency laws a JS comparator must satisfy for `Array.sort` to be
deterministic; all four comparators of the panel satisfy them. -/
structure CmpOK (cmp : α → α → Int) : Prop where
  flip : ∀ a b, cmp b a = -cmp a b
  eqTrans : ∀ a b c, cmp a b = 0 → cmp b c = 0 → cmp a c = 0
  ltLe : ∀ a b c, cmp a b < 0 → cmp b c ≤ 0 → cmp a c < 0

/-- The comparator of `case 'oldest'`. -/
def cmpOldest (a b : Comment) : Int := a.createdAt - b.createdAt

/-- The comparator of `case 'newest'`. -/
def cmpNewest (a b : Comment) : Int := b.createdAt - a.createdAt

/-- The comparator of `case 'commenter'`. -/
def cmpCommenter (a b : Comment) : Int := listCmp a.author b.author

/-- The comparator of `case 'timecode': default:`. -/
def cmpTimecode (a b : Comment) : Int := a.timestamp - b.timestamp

/-! ### A heap model of the JS array operations

The pure functions above ignore aliasing. To settle the frame claim — the
operations never mutate `comments` or any record in it — the same code is
rendered once more over an explicit heap of comment arrays: `.filter`
allocates a fresh array, `.sort` mutates in place the array it is called
on, records are immutable values (the source never assigns to a comment
field, and the output records are fresh spread-copies). -/

structure Heap where
  arrays : List (List Comment)

def heapGet (h : Heap) (r : Nat) : List Comment := h.arrays.getD r []

def heapAlloc (h : Heap) (a : List Comment) : Heap × Nat :=
  (⟨h.arrays ++ [a]⟩, h.arrays.length)

def heapSet (h : Heap) (r : Nat) (a : List Comment) : Heap :=
  ⟨h.arrays.set r a⟩

/-- `g` extends `h`: every array existing in `h` is intact in `g`. -/
def Preserves (h g : Heap) : Prop :=
  h.arrays.length ≤ g.arrays.length ∧ g.arrays.take h.arrays.length = h.arrays

/-- Allocate a fresh array holding the filtered contents of `st`'s array. -/
def stageFilter (st : Heap × Nat) (p : Comment → Bool) : Heap × Nat :=
  heapAlloc st.1 ((heapGet st.1 st.2).filter p)

/-- Sort `st`'s array in place (`Array.prototype.sort` mutates). -/
def stageSort (st : Heap × Nat) (cmp : Comment → Comment → Int) : Heap × Nat :=
  (heapSet st.1 st.2 (jsSort cmp (heapGet st.1 st.2)), st.2)

/-- Invariant carried through the pipeline: the heap only grew (`pres`),
the working ref is fresh (`lo`) and valid (`hi`), and holds value `v`. -/
structure StOK (h0 : Heap) (st : Heap × Nat) (v : List Comment) : Prop where
  pres : Preserves h0 st.1
  lo : h0.arrays.length ≤ st.2
  hi : st.2 < st.1.arrays.length
  val : heapGet st.1 st.2 = v

/-- Stage 1 of the heap pipeline: `comments.filter(c => !c.parentId)`. -/
def vst1 (h : Heap) (r : Nat) : Heap × Nat :=
  stageFilter (h, r) fun c => isTopLevel c

/-- Stage 2: the conditional search filter. -/
def vst2 (h : Heap) (r : Nat) (s : Str) : Heap × Nat :=
  if s = [] then vst1 h r else stageFilter (vst1 h r) fun c => searchPass s c

/-- Stage 3: the type filter. -/
def vst3 (h : Heap) (r : Nat) (s t : Str) : Heap × Nat :=
  if t = "public".toList then stageFilter (vst2 h r s) fun c => !(textHasInternal c)
  else if t = "internal".toList then stageFilter (vst2 h r s) fun c => textHasInternal c
  else vst2 h r s

/-- Stage 4: the advanced (attachments) filter. -/
def vst4 (h : Heap) (r : Nat) (s t : Str) (f : CommentFilters) : Heap × Nat :=
  if f.attachments then stageFilter (vst3 h r s t) fun c => hasAttachments c
  else vst3 h r s t

/-- Stage 5: the in-place `filteredComments.sort(...)`. -/
def vst5 (h : Heap) (r : Nat) (s t : Str) (f : CommentFilters) (o : Str) :
    Heap × Nat :=
  stageSort (vst4 h r s t f) (commentCmp o)

/-- Stage 6: the numbering pass filter over the original `comments` ref. -/
def vst6 (h : Heap) (r : Nat) (s t : Str) (f : CommentFilters) (o : Str) :
    Heap × Nat :=
  stageFilter ((vst5 h r s t f o).1, r) fun c =>
    isTopLevel c && decide (0 ≤ c.timestamp)

/-- Stage 7: the in-place sort of the numbering pass. -/
def vst7 (h : Heap) (r : Nat) (s t : Str) (f : CommentFilters) (o : Str) :
    Heap × Nat :=
  stageSort (vst6 h r s t f o) fun a b => a.timestamp - b.timestamp

/-- Heap rendering of `getTopLevelComments`; each stage mirrors one
statement of the source, with allocation/mutation explicit; the final map
builds fresh records. -/
def getTopLevelCommentsHeap (h : Heap) (r : Nat) (s t : Str)
    (f : CommentFilters) (o : Str) : Heap × List NumberedComment :=
  ((vst7 h r s t f o).1,
    (heapGet (vst7 h r s t f o).1 (vst5 h r s t f o).2).map fun c =>
      { base := c,
        commentNumber :=
          jsFindIndex (fun x => x.id == c.id)
            (heapGet (vst7 h r s t f o).1 (vst7 h r s t f o).2) + 1 })

/-- Heap rendering of `getReplies` (the filter allocates). -/
def getRepliesHeap (h : Heap) (commentsRef : Nat) (pid : Str) : Heap × Nat :=
  stageFilter (h, commentsRef) fun c => c.parentId == some pid

/-- Count-stage 1: the `topLevel` array. -/
def cst1 (h : Heap) (r : Nat) : Heap × Nat :=
  stageFilter (h, r) fun c => isTopLevel c

/-- Count-stage 2: the `public` filter over `topLevel`. -/
def cst2 (h : Heap) (r : Nat) : Heap × Nat :=
  stageFilter (cst1 h r) fun c => !(textHasInternal c)

/-- Count-stage 3: the `internal` filter, again over `topLevel`. -/
def cst3 (h : Heap) (r : Nat) : Heap × Nat :=
  stageFilter ((cst2 h r).1, (cst1 h r).2) fun c => textHasInternal c

/-- Heap rendering of `getCommentCounts` (three filter allocations; only
lengths are read out). -/
def getCommentCountsHeap (h : Heap) (r : Nat) : Heap × CommentCounts :=
  ((cst3 h r).1,
    { all := (heapGet (cst3 h r).1 (cst1 h r).2).length
      public := (heapGet (cst3 h r).1 (cst2 h r).2).length
      internal := (heapGet (cst3 h r).1 (cst3 h r).2).length })

/-! ### Concrete inputs used by the witness theorems -/

/-- A sample attachment. -/
def att1 : Attachment :=
  { url := "u".toList, type := "image/png".toList, name := "a.png".toList }

/-- A top-level comment carrying one attachment. -/
def cAtt : Comment :=
  { id := "4".toList, parentId := none, text := "with file".toList,
    author := "Dee".toList, createdAt := 400, timestamp := 7,
    attachments := some [att1], hasDrawing := false }

/-- Only the attachments toggle on. -/
def fAtt : CommentFilters :=
  { annotations := false, attachments := true, completed := false,
    incomplete := false, unread := false, mentionsAndReactions := false }

/-- Only the (inert) unread toggle on. -/
def fUnread : CommentFilters :=
  { annotations := false, attachments := false, completed := false,
    incomplete := false, unread := true, mentionsAndReactions := false }

/-- A parent comment for the partition witness. -/
def cP : Comment :=
  { id := "p".toList, parentId := none, text := "root".toList,
    author := "Eve".toList, createdAt := 10, timestamp := 1,
    attachments := none, hasDrawing := false }

/-- A reply to `cP`. -/
def cR : Comment :=
  { id := "r".toList, parentId := some "p".toList, text := "child".toList,
    author := "Fay".toList, createdAt := 20, timestamp := 3,
    attachments := none, hasDrawing := false }

/-- A two-element thread: one parent, one reply. -/
def csW : List Comment := [cP, cR]

/-! ### Elementary facts about the string model -/

theorem startsWithList_nil (l : Str) : startsWithList l [] = true := by
  cases l <;> rfl

theorem containsSub_nil (l : Str) : containsSub l [] = true := by
  induction l with
  | nil => rfl
  | cons a as ih => simp [containsSub, startsWithList_nil, ih]

theorem searchPass_nil (c : Comment) : searchPass [] c = true := by
  simp [searchPass, strToLower, containsSub_nil]

/-! ### Membership characterisation of the filter pipeline -/

theorem mem_filteredTopLevel {cs : List Comment} {s t : Str}
    {f : CommentFilters} {c : Comment} :
    c ∈ filteredTopLevel cs s t f ↔
      c ∈ cs ∧ isTopLevel c = true ∧ searchPass s c = true ∧
        typePass t c = true ∧ attachPass f c = true := by
  unfold filteredTopLevel typePass attachPass
  split
  · rename_i hs
    subst hs
    split
    · rename_i ht
      simp only [ht, if_pos rfl]
      split <;> simp_all [List.mem_filter, searchPass_nil] <;> tauto
    · split
      · rename_i ht hti
        simp only [if_neg ht, hti, if_pos rfl]
        split <;> simp_all [List.mem_filter, searchPass_nil] <;> tauto
      · rename_i ht hti
        simp only [if_neg ht, if_neg hti]
        split <;> simp_all [List.mem_filter, searchPass_nil] <;> tauto
  · split
    · rename_i hs ht
      simp only [ht, if_pos rfl]
      split <;> simp_all [List.mem_filter] <;> tauto
    · split
      · rename_i hs ht hti
        simp only [if_neg ht, hti, if_pos rfl]
        split <;> simp_all [List.mem_filter] <;> tauto
      · rename_i hs ht hti
        simp only [if_neg ht, if_neg hti]
        split <;> simp_all [List.mem_filter] <;> tauto

theorem CmpOK.total {cmp : α → α → Int} (h : CmpOK cmp) {a b : α}
    (hab : ¬cmp a b < 0) : cmp b a ≤ 0 := by
  have := h.flip a b
  omega

theorem CmpOK.leTrans {cmp : α → α → Int} (h : CmpOK cmp) {a b c : α}
    (hab : cmp a b ≤ 0) (hbc : cmp b c ≤ 0) : cmp a c ≤ 0 := by
  rcases lt_or_eq_of_le hab with hlt | heq
  · exact le_of_lt (h.ltLe a b c hlt hbc)
  · by_contra hpos
    push_neg at hpos
    have hca : cmp c a < 0 := by have := h.flip a c; omega
    have : cmp c b < 0 := h.ltLe c a b hca hab
    have := h.flip b c
    omega

theorem insertCmp_perm (cmp : α → α → Int) (a : α) (l : List α) :
    (insertCmp cmp a l).Perm (a :: l) := by
  induction l with
  | nil => simp [insertCmp]
  | cons b bs ih =>
    unfold insertCmp
    split
    · exact List.Perm.refl _
    · exact (List.Perm.cons b ih).trans (List.Perm.swap a b bs)

theorem sortAux_perm (cmp : α → α → Int) (l : List α) :
    ∀ acc : List α, (sortAux cmp acc l).Perm (acc ++ l) := by
  induction l with
  | nil => intro acc; simp [sortAux]
  | cons a as ih =>
    intro acc
    have h1 := ih (insertCmp cmp a acc)
    have h2 : (insertCmp cmp a acc ++ as).Perm ((a :: acc) ++ as) :=
      (insertCmp_perm cmp a acc).append_right as
    have h3 : (acc ++ a :: as).Perm (a :: (acc ++ as)) := List.perm_middle
    exact (h1.trans h2).trans h3.symm

theorem jsSort_perm (cmp : α → α → Int) (l : List α) :
    (jsSort cmp l).Perm l := by
  simpa using sortAux_perm cmp l []

theorem insertCmp_pairwise {cmp : α → α → Int} (h : CmpOK cmp) (a : α)
    {l : List α} (hl : l.Pairwise fun x y => cmp x y ≤ 0) :
    (insertCmp cmp a l).Pairwise fun x y => cmp x y ≤ 0 := by
  induction l with
  | nil => simp [insertCmp]
  | cons b bs ih =>
    rcases List.pairwise_cons.mp hl with ⟨hb, hbs⟩
    unfold insertCmp
    split
    · rename_i hab
      refine List.pairwise_cons.mpr ⟨?_, hl⟩
      intro x hx
      rcases List.mem_cons.mp hx with hx | hx
      · subst hx; exact le_of_lt hab
      · exact le_of_lt (h.ltLe a b x hab (hb x hx))
    · rename_i hab
      refine List.pairwise_cons.mpr ⟨?_, ih hbs⟩
      intro x hx
      have hx' := (insertCmp_perm cmp a bs).mem_iff.mp hx
      rcases List.mem_cons.mp hx' with hx' | hx'
      · subst hx'; exact h.total hab
      · exact hb x hx'

theorem sortAux_pairwise {cmp : α → α → Int} (h : CmpOK cmp) (l : List α)
    {acc : List α} (hacc : acc.Pairwise fun x y => cmp x y ≤ 0) :
    (sortAux cmp acc l).Pairwise fun x y => cmp x y ≤ 0 := by
  induction l generalizing acc with
  | nil => exact hacc
  | cons a as ih => exact ih (insertCmp_pairwise h a hacc)

theorem jsSort_pairwise {cmp : α → α → Int} (h : CmpOK cmp) (l : List α) :
    (jsSort cmp l).Pairwise fun x y => cmp x y ≤ 0 :=
  sortAux_pairwise h l List.Pairwise.nil

theorem insertCmp_filter_tie {cmp : α → α → Int} (h : CmpOK cmp) (v a : α)
    {l : List α} (hl : l.Pairwise fun x y => cmp x y ≤ 0) :
    (insertCmp cmp a l).filter (fun x => cmp x v == 0) =
      l.filter (fun x => cmp x v == 0) ++
        (if cmp a v = 0 then [a] else []) := by
  induction l with
  | nil =>
    by_cases hav : cmp a v = 0 <;> simp [insertCmp, List.filter_cons, hav]
  | cons b bs ih =>
    rcases List.pairwise_cons.mp hl with ⟨hb, hbs⟩
    unfold insertCmp
    split
    · rename_i hab
      by_cases hav : cmp a v = 0
      · have hnone : ∀ x ∈ b :: bs, ¬cmp x v = 0 := by
          intro x hx hxv
          have hbx : cmp b x ≤ 0 := by
            rcases List.mem_cons.mp hx with hx | hx
            · subst hx
              have := h.flip x x
              omega
            · exact hb x hx
          have hax : cmp a x < 0 := h.ltLe a b x hab hbx
          have hvx : cmp v x = 0 := by have := h.flip x v; omega
          have : cmp a x = 0 := h.eqTrans a v x hav hvx
          omega
        have hempty : (b :: bs).filter (fun x => cmp x v == 0) = [] := by
          apply List.filter_eq_nil_iff.mpr
          intro x hx
          simpa using hnone x hx
        simp [List.filter_cons, hempty, hav]
      · simp only [List.filter_cons]
        by_cases hbv : cmp b v = 0 <;> simp [hbv, hav]
    · rename_i hab
      simp only [List.filter_cons, ih hbs]
      by_cases hbv : cmp b v = 0 <;> simp [hbv]

theorem sortAux_filter_tie {cmp : α → α → Int} (h : CmpOK cmp) (v : α)
    (l : List α) :
    ∀ acc : List α, acc.Pairwise (fun x y => cmp x y ≤ 0) →
      (sortAux cmp acc l).filter (fun x => cmp x v == 0) =
        acc.filter (fun x => cmp x v == 0) ++ l.filter (fun x => cmp x v == 0) := by
  induction l with
  | nil => intro acc _; simp [sortAux]
  | cons a as ih =>
    intro acc hacc
    have step := ih (insertCmp cmp a acc) (insertCmp_pairwise h a hacc)
    unfold sortAux
    rw [step, insertCmp_filter_tie h v a hacc, List.filter_cons]
    by_cases hav : cmp a v = 0 <;> simp [hav]

/-- Stability of `jsSort`: the subsequence of elements tying with any
reference element `v` is returned in its original input order. -/
theorem jsSort_filter_tie {cmp : α → α → Int} (h : CmpOK cmp) (v : α)
    (l : List α) :
    (jsSort cmp l).filter (fun x => cmp x v == 0) =
      l.filter (fun x => cmp x v == 0) := by
  simpa using sortAux_filter_tie h v l [] List.Pairwise.nil

/-! ### The four panel comparators are consistent -/

theorem cmpOK_sub (f : α → Int) : CmpOK (fun a b => f a - f b) := by
  refine ⟨?_, ?_, ?_⟩ <;> intros <;> omega

theorem listCmp_flip : ∀ a b : Str, listCmp b a = -listCmp a b := by
  intro a
  induction a with
  | nil => intro b; cases b <;> rfl
  | cons x xs ih =>
    intro b
    cases b with
    | nil => rfl
    | cons y ys =>
      by_cases hxy : x < y
      · have hyx : ¬y < x := lt_asymm hxy
        simp [listCmp, hxy, hyx]
      · by_cases hyx : y < x
        · simp [listCmp, hxy, hyx]
        · simp [listCmp, hxy, hyx, ih ys]

theorem listCmp_eq_zero_iff : ∀ a b : Str, listCmp a b = 0 ↔ a = b := by
  intro a
  induction a with
  | nil => intro b; cases b <;> simp [listCmp]
  | cons x xs ih =>
    intro b
    cases b with
    | nil => simp [listCmp]
    | cons y ys =>
      by_cases hxy : x < y
      · have : x ≠ y := ne_of_lt hxy
        simp [listCmp, hxy, this]
      · by_cases hyx : y < x
        · have : x ≠ y := (ne_of_lt hyx).symm
          simp [listCmp, hxy, hyx, this]
        · have hx : x = y := le_antisymm (le_of_not_lt hyx) (le_of_not_lt hxy)
          simp [listCmp, hxy, hyx, hx, ih ys]

theorem listCmp_trans_lt :
    ∀ a b c : Str, listCmp a b < 0 → listCmp b c < 0 → listCmp a c < 0 := by
  intro a
  induction a with
  | nil =>
    intro b c hab hbc
    cases b with
    | nil => simp [listCmp] at hab
    | cons y ys =>
      cases c with
      | nil => simp [listCmp] at hbc
      | cons z zs => simp [listCmp]
  | cons x xs ih =>
    intro b c hab hbc
    cases b with
    | nil => simp [listCmp] at hab
    | cons y ys =>
      cases c with
      | nil => simp [listCmp] at hbc
      | cons z zs =>
        rcases lt_trichotomy x y with hxy | hxy | hxy
        · rcases lt_trichotomy y z with hyz | hyz | hyz
          · simp only [listCmp, if_pos (lt_trans hxy hyz)]
            omega
          · subst hyz
            simp only [listCmp, if_pos hxy]
            omega
          · simp only [listCmp, if_neg (lt_asymm hyz), if_pos hyz] at hbc
            omega
        · subst hxy
          simp only [listCmp, if_neg (lt_irrefl x)] at hab
          rcases lt_trichotomy x z with hxz | hxz | hxz
          · simp only [listCmp, if_pos hxz]
            omega
          · subst hxz
            simp only [listCmp, if_neg (lt_irrefl x)] at hbc ⊢
            exact ih ys zs hab hbc
          · simp only [listCmp, if_neg (lt_asymm hxz), if_pos hxz] at hbc
            omega
        · simp only [listCmp, if_neg (lt_asymm hxy), if_pos hxy] at hab
          omega

theorem cmpOK_listCmp (g : α → Str) : CmpOK (fun a b => listCmp (g a) (g b)) := by
  refine ⟨fun a b => listCmp_flip (g a) (g b), ?_, ?_⟩
  · intro a b c hab hbc
    rw [listCmp_eq_zero_iff] at hab hbc ⊢
    exact hab.trans hbc
  · intro a b c hab hbc
    rcases lt_or_eq_of_le hbc with hlt | heq
    · exact listCmp_trans_lt _ _ _ hab hlt
    · have hz : g b = g c := (listCmp_eq_zero_iff (g b) (g c)).mp heq
      rw [← hz]
      exact hab

theorem commentCmp_eq_oldest {o : Str} (h : o = "oldest".toList) :
    commentCmp o = cmpOldest := by
  funext a b
  rw [commentCmp, if_pos h]
  rfl

theorem commentCmp_eq_newest {o : Str} (h1 : o ≠ "oldest".toList)
    (h2 : o = "newest".toList) : commentCmp o = cmpNewest := by
  funext a b
  rw [commentCmp, if_neg h1, if_pos h2]
  rfl

theorem commentCmp_eq_commenter {o : Str} (h1 : o ≠ "oldest".toList)
    (h2 : o ≠ "newest".toList) (h3 : o = "commenter".toList) :
    commentCmp o = cmpCommenter := by
  funext a b
  rw [commentCmp, if_neg h1, if_neg h2, if_pos h3]
  rfl

theorem commentCmp_eq_timecode {o : Str} (h1 : o ≠ "oldest".toList)
    (h2 : o ≠ "newest".toList) (h3 : o ≠ "commenter".toList) :
    commentCmp o = cmpTimecode := by
  funext a b
  rw [commentCmp, if_neg h1, if_neg h2, if_neg h3]
  rfl

theorem cmpOldest_ok : CmpOK cmpOldest := by
  refine ⟨?_, ?_, ?_⟩ <;> intros <;> simp only [cmpOldest] at * <;> omega

theorem cmpNewest_ok : CmpOK cmpNewest := by
  refine ⟨?_, ?_, ?_⟩ <;> intros <;> simp only [cmpNewest] at * <;> omega

theorem cmpCommenter_ok : CmpOK cmpCommenter := by
  have h := cmpOK_listCmp (fun c : Comment => c.author)
  exact ⟨h.flip, h.eqTrans, h.ltLe⟩

theorem cmpTimecode_ok : CmpOK cmpTimecode := by
  refine ⟨?_, ?_, ?_⟩ <;> intros <;> simp only [cmpTimecode] at * <;> omega

theorem commentCmp_ok (o : Str) : CmpOK (commentCmp o) := by
  by_cases h1 : o = "oldest".toList
  · rw [commentCmp_eq_oldest h1]
    exact cmpOldest_ok
  · by_cases h2 : o = "newest".toList
    · rw [commentCmp_eq_newest h1 h2]
      exact cmpNewest_ok
    · by_cases h3 : o = "commenter".toList
      · rw [commentCmp_eq_commenter h1 h2 h3]
        exact cmpCommenter_ok
      · rw [commentCmp_eq_timecode h1 h2 h3]
        exact cmpTimecode_ok

/-! ### The derived view: basic shape lemmas -/

theorem map_base_getTopLevelComments (cs : List Comment) (s t : Str)
    (f : CommentFilters) (o : Str) :
    (getTopLevelComments cs s t f o).map (fun x => x.base) =
      jsSort (commentCmp o) (filteredTopLevel cs s t f) := by
  unfold getTopLevelComments
  rw [List.map_map]
  exact List.map_id' _

theorem mem_base_iff {cs : List Comment} {s t : Str} {f : CommentFilters}
    {o : Str} {c : Comment} :
    c ∈ (getTopLevelComments cs s t f o).map (fun x => x.base) ↔
      c ∈ cs ∧ isTopLevel c = true ∧ searchPass s c = true ∧
        typePass t c = true ∧ attachPass f c = true := by
  rw [map_base_getTopLevelComments, (jsSort_perm _ _).mem_iff]
  exact mem_filteredTopLevel

theorem length_filter_add_not (p : α → Bool) (l : List α) :
    (l.filter fun x => !(p x)).length + (l.filter p).length = l.length := by
  induction l with
  | nil => rfl
  | cons a as ih =>
    by_cases hp : p a = true <;>
      simp [List.filter_cons, hp, ih] <;> omega

/-! ### Claim theorems -/

/-- C2: the sequence returned by the view deriver is the filtered top-level
set (a permutation of the filter pipeline's output), sorted by the
comparator selected by `sortBy` (adjacent elements compare `≤ 0`), and the
sort is stable (elements tying with any reference element keep their
relative input order); on Scenario A with `timecode`/`all` the output is
`[id 2 (#1), id 1 (#2)]`. -/
theorem view_sorted_stable_scenarioA :
    (∀ (cs : List Comment) (s t : Str) (f : CommentFilters) (o : Str),
      ((getTopLevelComments cs s t f o).map (fun x => x.base)).Perm
          (filteredTopLevel cs s t f)
        ∧ ((getTopLevelComments cs s t f o).map (fun x => x.base)).Pairwise
            (fun a b => commentCmp o a b ≤ 0)
        ∧ ∀ v : Comment,
            ((getTopLevelComments cs s t f o).map (fun x => x.base)).filter
                (fun x => commentCmp o x v == 0) =
              (filteredTopLevel cs s t f).filter
                (fun x => commentCmp o x v == 0))
    ∧ getTopLevelComments scA [] "all".toList f0 "timecode".toList =
        [{ base := cA2, commentNumber := 1 }, { base := cA1, commentNumber := 2 }] := by
  constructor
  · intro cs s t f o
    rw [map_base_getTopLevelComments]
    exact ⟨jsSort_perm _ _, jsSort_pairwise (commentCmp_ok o) _,
      fun v => jsSort_filter_tie (commentCmp_ok o) v _⟩
  · decide

/-- C3: with `typeFilter = public` a top-level comment is kept iff its text
does not contain the case-sensitive substring `internal`; with `internal`
iff it does; with `all` the type stage removes nothing (membership is then
exactly the other stages' conjunction); Scenario B returns only `id 2`. -/
theorem view_typeFilter_correct :
    (∀ (cs : List Comment) (s : Str) (f : CommentFilters) (o : Str) (c : Comment),
      (c ∈ (getTopLevelComments cs s "public".toList f o).map (fun x => x.base) ↔
        (c ∈ (getTopLevelComments cs s "all".toList f o).map (fun x => x.base)
          ∧ textHasInternal c = false))
      ∧ (c ∈ (getTopLevelComments cs s "internal".toList f o).map (fun x => x.base) ↔
        (c ∈ (getTopLevelComments cs s "all".toList f o).map (fun x => x.base)
          ∧ textHasInternal c = true))
      ∧ (c ∈ (getTopLevelComments cs s "all".toList f o).map (fun x => x.base) ↔
        (c ∈ cs ∧ isTopLevel c = true ∧ searchPass s c = true ∧ attachPass f c = true)))
    ∧ (getTopLevelComments scA [] "internal".toList f0 "timecode".toList).map
        (fun x => x.base.id) = ["2".toList] := by
  constructor
  · intro cs s f o c
    have hpub : typePass "public".toList c = !(textHasInternal c) := by
      simp [typePass]
    have hint : typePass "internal".toList c = textHasInternal c := by
      have h1 : ("internal".toList : Str) ≠ "public".toList := by decide
      simp [typePass, h1]
    have hall : typePass "all".toList c = true := by
      have h1 : ("all".toList : Str) ≠ "public".toList := by decide
      have h2 : ("all".toList : Str) ≠ "internal".toList := by decide
      simp [typePass, h1, h2]
    simp only [mem_base_iff, hpub, hint, hall]
    constructor
    · cases htc : textHasInternal c <;> simp [htc]
    constructor
    · cases htc : textHasInternal c <;> simp [htc]
    · tauto
  · decide

/-- C4: a top-level comment is kept by the search stage iff its text or its
author case-insensitively contains `searchTerm`; the empty search term
matches every comment (hence filters nothing out); Scenario D
(`searchTerm = "Bob"`) returns only `id 1`. -/
theorem view_search_correct :
    (∀ (cs : List Comment) (s t : Str) (f : CommentFilters) (o : Str) (c : Comment),
      c ∈ (getTopLevelComments cs s t f o).map (fun x => x.base) ↔
        (c ∈ (getTopLevelComments cs [] t f o).map (fun x => x.base)
          ∧ searchPass s c = true))
    ∧ (∀ c : Comment, searchPass [] c = true)
    ∧ (getTopLevelComments scA "Bob".toList "all".toList f0 "timecode".toList).map
        (fun x => x.base.id) = ["1".toList] := by
  refine ⟨?_, searchPass_nil, by decide⟩
  intro cs s t f o c
  simp only [mem_base_iff, searchPass_nil]
  tauto

/-- C5: when the `attachments` toggle is on, every comment in the output has
at least one attachment; the five remaining toggles never influence the
output. -/
theorem view_attachments_toggle_correct :
    (∀ (cs : List Comment) (s t : Str) (f : CommentFilters) (o : Str),
      f.attachments = true →
        (getTopLevelComments cs s t f o).all
          (fun x =>
            match x.base.attachments with
            | some l => decide (1 ≤ l.length)
            | none => false) = true)
    ∧ (∀ (cs : List Comment) (s t : Str) (f g : CommentFilters) (o : Str),
        f.attachments = g.attachments →
          getTopLevelComments cs s t f o = getTopLevelComments cs s t g o) := by
  constructor
  · intro cs s t f o hf
    rw [List.all_eq_true]
    intro x hx
    have hb : x.base ∈ (getTopLevelComments cs s t f o).map (fun y => y.base) :=
      List.mem_map_of_mem _ hx
    have := (mem_base_iff.mp hb).2.2.2.2
    rw [attachPass, hf, if_pos rfl] at this
    unfold hasAttachments at this
    rcases hatt : x.base.attachments with _ | l
    · rw [hatt] at this
      exact absurd this (by simp)
    · rw [hatt] at this
      simp only [decide_eq_true_eq] at this ⊢
      omega
  · intro cs s t f g o h
    simp only [getTopLevelComments, filteredTopLevel, h]

/-- C7: `getReplies` returns exactly the comments whose `parentId` equals
the given id (membership and multiplicity), as a sublist of `allComments`,
i.e. in their original relative order with no reordering. -/
theorem replies_filter_correct :
    ∀ (cs : List Comment) (pid : Str),
      List.Sublist (getRepliesOp cs pid) cs
      ∧ (∀ c, c ∈ getRepliesOp cs pid ↔ (c ∈ cs ∧ c.parentId = some pid))
      ∧ (∀ c, (getRepliesOp cs pid).count c =
          if c.parentId = some pid then cs.count c else 0) := by
  intro cs pid
  refine ⟨List.filter_sublist cs, ?_, ?_⟩
  · intro c
    simp [getRepliesOp, List.mem_filter]
  · intro c
    unfold getRepliesOp
    induction cs with
    | nil => simp
    | cons a as ih =>
      by_cases ha : a.parentId = some pid
      · rw [List.filter_cons, if_pos (by simpa using ha)]
        by_cases hac : a = c
        · subst hac
          simp [List.count_cons, ih, ha]
        · simp [List.count_cons, ih, Ne.symm hac]
      · rw [List.filter_cons, if_neg (by simpa using ha)]
        by_cases hac : a = c
        · subst hac
          simp [List.count_cons, ih, ha]
        · simp [List.count_cons, ih, Ne.symm hac]

/-- C10: the counts satisfy `all = public + internal` and `all` is the
number of top-level comments: the `internal`-substring predicate partitions
the top-level subset. -/
theorem counts_partition_correct :
    ∀ cs : List Comment,
      (getCommentCounts cs).all =
          (getCommentCounts cs).public + (getCommentCounts cs).internal
        ∧ (getCommentCounts cs).all = (cs.filter fun c => isTopLevel c).length := by
  intro cs
  refine ⟨?_, rfl⟩
  have h := length_filter_add_not (fun c => textHasInternal c)
    (cs.filter fun c => isTopLevel c)
  simp only [getCommentCounts]
  omega

/-! ### `findIndex` facts, used by the numbering pass -/

theorem jsFindIndex_ge (p : α → Bool) (l : List α) : -1 ≤ jsFindIndex p l := by
  induction l with
  | nil => simp [jsFindIndex]
  | cons a as ih =>
    unfold jsFindIndex
    split
    · omega
    · dsimp only
      split <;> omega

theorem jsFindIndex_eq_neg_one (p : α → Bool) (l : List α)
    (h : ∀ x ∈ l, p x = false) : jsFindIndex p l = -1 := by
  induction l with
  | nil => rfl
  | cons a as ih =>
    unfold jsFindIndex
    rw [if_neg (by simp [h a (List.mem_cons_self a as)])]
    dsimp only
    rw [ih fun x hx => h x (List.mem_cons_of_mem a hx)]
    rfl

theorem jsFindIndex_found (p : α → Bool) (l : List α) {a : α} (ha : a ∈ l)
    (hp : p a = true) :
    ∃ i : Fin l.length, jsFindIndex p l = (i : Int) ∧ p (l.get i) = true ∧
      ∀ j : Fin l.length, (j : Nat) < (i : Nat) → p (l.get j) = false := by
  induction l with
  | nil => cases ha
  | cons b bs ih =>
    by_cases hpb : p b = true
    · refine ⟨⟨0, by simp⟩, ?_, ?_, ?_⟩
      · unfold jsFindIndex
        rw [if_pos hpb]
        simp
      · simpa using hpb
      · intro j hj
        simp at hj
    · have hab : a ∈ bs := by
        rcases List.mem_cons.mp ha with h | h
        · subst h; exact absurd hp hpb
        · exact h
      rcases ih hab with ⟨i, hi, hgi, hmin⟩
      have hnn : (0 : Int) ≤ jsFindIndex p bs := by
        rw [hi]; omega
      refine ⟨⟨(i : Nat) + 1, by simpa using Nat.succ_lt_succ i.isLt⟩, ?_, ?_, ?_⟩
      · unfold jsFindIndex
        rw [if_neg (by simp [hpb])]
        dsimp only
        rw [if_neg (by omega), hi]
        simp
      · simpa using hgi
      · intro j hj
        rcases j with ⟨jv, hjv⟩
        cases jv with
        | zero => simpa using (Bool.not_eq_true (p b)).mp hpb
        | succ k =>
          have hk : k < (i : Nat) := by simpa using hj
          have := hmin ⟨k, by omega⟩ hk
          simpa using this

/-! ### The numbering pass: decomposition of view elements -/

theorem mem_view_decompose {cs : List Comment} {s t : Str} {f : CommentFilters}
    {o : Str} {x : NumberedComment} (hx : x ∈ getTopLevelComments cs s t f o) :
    x.commentNumber = numberOf cs x.base.id ∧ x.base ∈ filteredTopLevel cs s t f := by
  unfold getTopLevelComments at hx
  rcases List.mem_map.mp hx with ⟨c, hc, rfl⟩
  exact ⟨rfl, (jsSort_perm _ _).mem_iff.mp hc⟩

/-- C1: the numbering pass is the unfiltered time-anchored top-level subset
sorted ascending by `timestamp`; under unique ids every time-anchored
comment in the view carries `commentNumber = i + 1` where `i` is its
(first-match-by-id) position in that sorted pass, a general comment carries
`0` (no stable number, rendered as a placeholder); and the number attached
to a view element depends only on `allComments` and the element's id —
never on search, type filter, advanced filters or sort option. -/
theorem view_numbering_stable :
    (∀ cs : List Comment,
       (numberingList cs).Pairwise fun a b => a.timestamp ≤ b.timestamp)
    ∧ (∀ cs : List Comment,
        (numberingList cs).Perm
          (cs.filter fun c => isTopLevel c && decide (0 ≤ c.timestamp)))
    ∧ (∀ (cs : List Comment) (s t : Str) (f : CommentFilters) (o : Str)
         (x : NumberedComment), x ∈ getTopLevelComments cs s t f o →
         (cs.map fun c => c.id).Nodup →
           (0 ≤ x.base.timestamp →
             ∃ i : Fin (numberingList cs).length,
               ((numberingList cs).get i).id = x.base.id
                 ∧ x.commentNumber = (i : Int) + 1
                 ∧ ∀ j : Fin (numberingList cs).length, (j : Nat) < (i : Nat) →
                     ((numberingList cs).get j).id ≠ x.base.id)
           ∧ (x.base.timestamp < 0 → x.commentNumber = 0))
    ∧ (∀ (cs : List Comment) (s t : Str) (f : CommentFilters) (o : Str)
         (s2 t2 : Str) (f2 : CommentFilters) (o2 : Str) (x y : NumberedComment),
         x ∈ getTopLevelComments cs s t f o →
         y ∈ getTopLevelComments cs s2 t2 f2 o2 →
         x.base.id = y.base.id → x.commentNumber = y.commentNumber) := by
  refine ⟨?_, ?_, ?_, ?_⟩
  · intro cs
    have h := @jsSort_pairwise Comment (fun a b => a.timestamp - b.timestamp)
      (cmpOK_sub fun c => c.timestamp)
      (cs.filter fun c => isTopLevel c && decide (0 ≤ c.timestamp))
    exact h.imp fun hab => by omega
  · intro cs
    exact jsSort_perm _ _
  · intro cs s t f o x hx hnodup
    rcases mem_view_decompose hx with ⟨hnum, hbase⟩
    have hmem : x.base ∈ cs ∧ isTopLevel x.base = true :=
      ⟨(mem_filteredTopLevel.mp hbase).1, (mem_filteredTopLevel.mp hbase).2.1⟩
    constructor
    · intro hts
      have hfl : x.base ∈ cs.filter fun c => isTopLevel c && decide (0 ≤ c.timestamp) := by
        rw [List.mem_filter]
        exact ⟨hmem.1, by simp [hmem.2, hts]⟩
      have hnl : x.base ∈ numberingList cs := (jsSort_perm _ _).mem_iff.mpr hfl
      rcases jsFindIndex_found (fun y => y.id == x.base.id) (numberingList cs)
          hnl (by simp) with ⟨i, hi, hgi, hmin⟩
      refine ⟨i, by simpa using hgi, ?_, ?_⟩
      · rw [hnum]
        unfold numberOf
        rw [hi]
      · intro j hj
        have := hmin j hj
        simpa using this
    · intro hts
      have hempty : ∀ y ∈ numberingList cs, (fun y => y.id == x.base.id) y = false := by
        intro y hy
        have hyf : y ∈ cs.filter fun c => isTopLevel c && decide (0 ≤ c.timestamp) :=
          (jsSort_perm _ _).mem_iff.mp hy
        rw [List.mem_filter] at hyf
        have hyts : 0 ≤ y.timestamp := by
          have := hyf.2
          simp only [Bool.and_eq_true, decide_eq_true_eq] at this
          exact this.2
        simp only [beq_eq_false_iff_ne, ne_eq]
        intro hid
        have : y = x.base :=
          List.inj_on_of_nodup_map hnodup hyf.1 hmem.1 hid
        rw [this] at hyts
        omega
      rw [hnum]
      unfold numberOf
      rw [jsFindIndex_eq_neg_one _ _ hempty]
      decide
  · intro cs s t f o s2 t2 f2 o2 x y hx hy hid
    rw [(mem_view_decompose hx).1, (mem_view_decompose hy).1, hid]

/-- C8: the three operations are total Lean functions (they cannot raise);
on the empty collection all three return empty results and zero counts; a
`sortBy` string outside the four enumerated options falls back to the
`timecode` comparator, and a `selectedCommentType` outside
`public`/`internal` behaves exactly like `all`. -/
theorem totality_and_fallbacks :
    (∀ (s t : Str) (f : CommentFilters) (o : Str) (pid : Str),
       getTopLevelComments [] s t f o = []
       ∧ getRepliesOp [] pid = []
       ∧ getCommentCounts [] = { all := 0, public := 0, internal := 0 })
    ∧ (∀ (cs : List Comment) (s t : Str) (f : CommentFilters) (o : Str),
        o ≠ "oldest".toList → o ≠ "newest".toList → o ≠ "commenter".toList →
          getTopLevelComments cs s t f o =
            getTopLevelComments cs s t f "timecode".toList)
    ∧ (∀ (cs : List Comment) (s : Str) (f : CommentFilters) (o t : Str),
        t ≠ "public".toList → t ≠ "internal".toList →
          getTopLevelComments cs s t f o =
            getTopLevelComments cs s "all".toList f o) := by
  refine ⟨?_, ?_, ?_⟩
  · intro s t f o pid
    refine ⟨?_, rfl, rfl⟩
    simp only [getTopLevelComments, filteredTopLevel]
    simp [jsSort, sortAux]
  · intro cs s t f o h1 h2 h3
    unfold getTopLevelComments
    rw [commentCmp_eq_timecode h1 h2 h3,
      commentCmp_eq_timecode (by decide) (by decide) (by decide)]
  · intro cs s f o t h1 h2
    simp only [getTopLevelComments, filteredTopLevel]
    rw [if_neg h1, if_neg h2,
      if_neg (show ("all".toList : Str) ≠ "public".toList by decide),
      if_neg (show ("all".toList : Str) ≠ "internal".toList by decide)]

/-! ### Replies and thread partitioning -/

theorem mem_getRepliesOp {cs : List Comment} {pid : Str} {r : Comment} :
    r ∈ getRepliesOp cs pid ↔ r ∈ cs ∧ r.parentId = some pid := by
  simp [getRepliesOp, List.mem_filter]

theorem filteredTopLevel_neutral (cs : List Comment) (f : CommentFilters)
    (hf : f.attachments = false) :
    filteredTopLevel cs [] "all".toList f = cs.filter fun c => isTopLevel c := by
  simp only [filteredTopLevel, hf]
  have h1 : ("all".toList : Str) ≠ "public".toList := by decide
  have h2 : ("all".toList : Str) ≠ "internal".toList := by decide
  simp [h1, h2]

/-- C6: with no search term, type filter `all`, the attachments toggle off
and unique ids, the view output together with the `getReplies` lists of its
members partitions `allComments` exactly when every reply's `parentId` is
the id of a rendered top-level comment; and — under any parameters — a
reply whose `parentId` matches no rendered parent is returned for no parent
of the output. -/
theorem reply_partition_correct :
    (∀ (cs : List Comment) (f : CommentFilters) (o : Str),
       (cs.map fun c => c.id).Nodup → f.attachments = false →
         ((((getTopLevelComments cs [] "all".toList f o).map fun x => x.base) ++
             ((getTopLevelComments cs [] "all".toList f o).flatMap
                fun x => getRepliesOp cs x.base.id)).Perm cs
           ↔ ∀ r ∈ cs, ∀ p : Str, r.parentId = some p →
               p ∈ (getTopLevelComments cs [] "all".toList f o).map fun x => x.base.id))
    ∧ (∀ (cs : List Comment) (s t : Str) (f : CommentFilters) (o : Str) (r : Comment),
        (∀ x ∈ getTopLevelComments cs s t f o, r.parentId ≠ some x.base.id) →
          ∀ x ∈ getTopLevelComments cs s t f o, r ∉ getRepliesOp cs x.base.id) := by
  constructor
  · intro cs f o hnodup hf
    set out := getTopLevelComments cs [] "all".toList f o with hout
    have hpermB : (out.map fun x => x.base).Perm (cs.filter fun c => isTopLevel c) := by
      rw [hout, map_base_getTopLevelComments, filteredTopLevel_neutral cs f hf]
      exact jsSort_perm _ _
    have hcsnodup : cs.Nodup := hnodup.of_map
    have hBnodup : (out.map fun x => x.base).Nodup :=
      hpermB.nodup_iff.mpr (hcsnodup.filter _)
    have hidn : (out.map fun x => x.base.id).Nodup := by
      have h1 : (out.map fun x => x.base.id) =
          (out.map fun x => x.base).map fun c => c.id := by
        rw [List.map_map]
        rfl
      rw [h1, (hpermB.map fun c => c.id).nodup_iff]
      exact List.Nodup.sublist ((List.filter_sublist cs).map fun c => c.id) hnodup
    have hFnodup : (out.flatMap fun x => getRepliesOp cs x.base.id).Nodup := by
      rw [List.nodup_flatMap]
      refine ⟨fun x _ => hcsnodup.filter _, ?_⟩
      have hidn2 : (out.map fun x => x.base.id).Pairwise (· ≠ ·) := hidn
      have hpw : out.Pairwise fun a b => a.base.id ≠ b.base.id :=
        List.pairwise_map.mp hidn2
      refine hpw.imp ?_
      intro a b hne r hra hrb
      have h1 := (mem_getRepliesOp.mp hra).2
      have h2 := (mem_getRepliesOp.mp hrb).2
      rw [h1] at h2
      exact hne (Option.some.inj h2)
    have hdisjBF : List.Disjoint (out.map fun x => x.base)
        (out.flatMap fun x => getRepliesOp cs x.base.id) := by
      intro r hrB hrF
      have h1 : isTopLevel r = true :=
        (List.mem_filter.mp (hpermB.mem_iff.mp hrB)).2
      rcases List.mem_flatMap.mp hrF with ⟨x, _, hrx⟩
      have h2 := (mem_getRepliesOp.mp hrx).2
      simp [isTopLevel, h2] at h1
    have hunion_nodup : (((out.map fun x => x.base) ++
        (out.flatMap fun x => getRepliesOp cs x.base.id))).Nodup := by
      rw [List.nodup_append]
      exact ⟨hBnodup, hFnodup, hdisjBF⟩
    constructor
    · intro hperm r hr p hp
      have hrU := hperm.mem_iff.mpr hr
      rcases List.mem_append.mp hrU with hrB | hrF
      · have htl : isTopLevel r = true :=
          (List.mem_filter.mp (hpermB.mem_iff.mp hrB)).2
        rw [isTopLevel, Option.isNone_iff_eq_none] at htl
        rw [htl] at hp
        cases hp
      · rcases List.mem_flatMap.mp hrF with ⟨x, hx, hrx⟩
        have h2 := (mem_getRepliesOp.mp hrx).2
        rw [hp] at h2
        exact List.mem_map.mpr ⟨x, hx, (Option.some.inj h2).symm⟩
    · intro hres
      rw [List.perm_ext_iff_of_nodup hunion_nodup hcsnodup]
      intro a
      constructor
      · intro haU
        rcases List.mem_append.mp haU with hrB | hrF
        · exact (List.mem_filter.mp (hpermB.mem_iff.mp hrB)).1
        · rcases List.mem_flatMap.mp hrF with ⟨x, _, hrx⟩
          exact (mem_getRepliesOp.mp hrx).1
      · intro ha
        cases hti : isTopLevel a with
        | false =>
          have hex : ∃ p, a.parentId = some p := by
            rcases hpid : a.parentId with _ | p
            · simp [isTopLevel, hpid] at hti
            · exact ⟨p, rfl⟩
          rcases hex with ⟨p, hpid⟩
          have hpin := hres a ha p hpid
          rcases List.mem_map.mp hpin with ⟨x, hx, hxid⟩
          refine List.mem_append.mpr (Or.inr ?_)
          refine List.mem_flatMap.mpr ⟨x, hx, ?_⟩
          exact mem_getRepliesOp.mpr ⟨ha, by rw [hpid, hxid]⟩
        | true =>
          exact List.mem_append.mpr
            (Or.inl (hpermB.mem_iff.mpr (List.mem_filter.mpr ⟨ha, hti⟩)))
  · intro cs s t f o r hno x hx hrx
    exact hno x hx (mem_getRepliesOp.mp hrx).2

theorem getD_append_lt : ∀ (l m : List α) (i : Nat) (d : α), i < l.length →
    (l ++ m).getD i d = l.getD i d := by
  intro l
  induction l with
  | nil => intro m i d hi; cases hi
  | cons a as ih =>
    intro m i d hi
    cases i with
    | zero => rfl
    | succ k => exact ih m k d (by simpa using hi)

theorem getD_append_len : ∀ (l : List α) (a : α) (d : α),
    (l ++ [a]).getD l.length d = a := by
  intro l
  induction l with
  | nil => intro a d; rfl
  | cons b bs ih => intro a d; exact ih a d

theorem take_len_append : ∀ (l m : List α), (l ++ m).take l.length = l := by
  intro l
  induction l with
  | nil => intro m; rfl
  | cons a as ih => intro m; simp [List.take_succ_cons, ih]

theorem take_set_ge : ∀ (l : List α) (i : Nat) (a : α) (n : Nat), n ≤ i →
    (l.set i a).take n = l.take n := by
  intro l
  induction l with
  | nil => intro i a n _; rfl
  | cons b bs ih =>
    intro i a n hn
    cases i with
    | zero =>
      cases n with
      | zero => rfl
      | succ m => omega
    | succ k =>
      cases n with
      | zero => rfl
      | succ m => simp [List.set, List.take_succ_cons, ih k a m (by omega)]

theorem getD_set_self : ∀ (l : List α) (i : Nat) (a : α) (d : α),
    i < l.length → (l.set i a).getD i d = a := by
  intro l
  induction l with
  | nil => intro i a d hi; cases hi
  | cons b bs ih =>
    intro i a d hi
    cases i with
    | zero => rfl
    | succ k => exact ih k a d (by simpa using hi)

theorem getD_take : ∀ (l : List α) (n i : Nat) (d : α), i < n →
    (l.take n).getD i d = l.getD i d := by
  intro l
  induction l with
  | nil => intro n i d _; simp
  | cons a as ih =>
    intro n i d hi
    cases n with
    | zero => cases hi
    | succ m =>
      cases i with
      | zero => rfl
      | succ k => exact ih m k d (by omega)

theorem preserves_refl (h : Heap) : Preserves h h :=
  ⟨Nat.le_refl _, List.take_length _⟩

theorem preserves_trans {h g k : Heap} (h1 : Preserves h g) (h2 : Preserves g k) :
    Preserves h k := by
  refine ⟨Nat.le_trans h1.1 h2.1, ?_⟩
  have : k.arrays.take h.arrays.length =
      (k.arrays.take g.arrays.length).take h.arrays.length := by
    rw [List.take_take, Nat.min_eq_left h1.1]
  rw [this, h2.2, h1.2]

theorem preserves_alloc (h : Heap) (a : List Comment) :
    Preserves h (heapAlloc h a).1 := by
  refine ⟨by simp [heapAlloc], ?_⟩
  exact take_len_append h.arrays [a]

theorem preserves_set {h g : Heap} (hp : Preserves h g) {r : Nat}
    (hr : h.arrays.length ≤ r) (a : List Comment) :
    Preserves h (heapSet g r a) := by
  refine ⟨by simpa [heapSet] using hp.1, ?_⟩
  rw [heapSet]
  show (g.arrays.set r a).take h.arrays.length = h.arrays
  rw [take_set_ge g.arrays r a h.arrays.length hr, hp.2]

theorem preserves_getD {h g : Heap} (hp : Preserves h g) {r : Nat}
    (hr : r < h.arrays.length) : heapGet g r = heapGet h r := by
  unfold heapGet
  rw [← hp.2, getD_take g.arrays h.arrays.length r [] hr]

theorem stageFilter_stOK0 {h0 : Heap} {g : Heap} (hp : Preserves h0 g)
    (p : Comment → Bool) (r : Nat) :
    StOK h0 (stageFilter (g, r) p) ((heapGet g r).filter p) := by
  refine ⟨preserves_trans hp (preserves_alloc g _), ?_, ?_, ?_⟩
  · exact Nat.le_trans hp.1 (Nat.le_refl _)
  · simp [stageFilter, heapAlloc]
  · exact getD_append_len g.arrays _ []

theorem stageFilter_stOK {h0 : Heap} {st : Heap × Nat} {v : List Comment}
    (hst : StOK h0 st v) (p : Comment → Bool) :
    StOK h0 (stageFilter st p) (v.filter p) := by
  have h := stageFilter_stOK0 hst.pres p st.2
  rwa [hst.val] at h

theorem stageSort_stOK {h0 : Heap} {st : Heap × Nat} {v : List Comment}
    (hst : StOK h0 st v) (cmp : Comment → Comment → Int) :
    StOK h0 (stageSort st cmp) (jsSort cmp v) := by
  refine ⟨preserves_set hst.pres hst.lo _, hst.lo, ?_, ?_⟩
  · simpa [stageSort, heapSet] using hst.hi
  · show heapGet (heapSet st.1 st.2 (jsSort cmp (heapGet st.1 st.2))) st.2 =
      jsSort cmp v
    unfold heapGet heapSet
    rw [getD_set_self st.1.arrays st.2 _ [] hst.hi]
    have hv : st.1.arrays.getD st.2 [] = v := hst.val
    rw [hv]

theorem stOK_if {c : Prop} [Decidable c] {h0 : Heap} {sa sb : Heap × Nat}
    {va vb : List Comment} (ha : StOK h0 sa va) (hb : StOK h0 sb vb) :
    StOK h0 (if c then sa else sb) (if c then va else vb) := by
  split <;> assumption

theorem vst4_ok (h : Heap) (r : Nat) (s t : Str) (f : CommentFilters) :
    StOK h (vst4 h r s t f) (filteredTopLevel (heapGet h r) s t f) := by
  have H1 := stageFilter_stOK0 (preserves_refl h) (fun c => isTopLevel c) r
  have H2 := stOK_if (c := s = []) H1
    (stageFilter_stOK H1 fun c => searchPass s c)
  have H3 := stOK_if (c := t = "public".toList)
    (stageFilter_stOK H2 fun c => !(textHasInternal c))
    (stOK_if (c := t = "internal".toList)
      (stageFilter_stOK H2 fun c => textHasInternal c) H2)
  have H4 := stOK_if (c := f.attachments = true)
    (stageFilter_stOK H3 fun c => hasAttachments c) H3
  exact H4

theorem vst5_ok (h : Heap) (r : Nat) (s t : Str) (f : CommentFilters) (o : Str) :
    StOK h (vst5 h r s t f o)
      (jsSort (commentCmp o) (filteredTopLevel (heapGet h r) s t f)) :=
  stageSort_stOK (vst4_ok h r s t f) (commentCmp o)

theorem vst6_ok (h : Heap) (r : Nat) (s t : Str) (f : CommentFilters) (o : Str)
    (hr : r < h.arrays.length) :
    StOK h (vst6 h r s t f o)
      ((heapGet h r).filter fun c => isTopLevel c && decide (0 ≤ c.timestamp)) := by
  have H := stageFilter_stOK0 (vst5_ok h r s t f o).pres
    (fun c => isTopLevel c && decide (0 ≤ c.timestamp)) r
  rwa [preserves_getD (vst5_ok h r s t f o).pres hr] at H

theorem vst7_ok (h : Heap) (r : Nat) (s t : Str) (f : CommentFilters) (o : Str)
    (hr : r < h.arrays.length) :
    StOK h (vst7 h r s t f o) (numberingList (heapGet h r)) :=
  stageSort_stOK (vst6_ok h r s t f o hr) fun a b => a.timestamp - b.timestamp

theorem vst5_val_stable (h : Heap) (r : Nat) (s t : Str) (f : CommentFilters)
    (o : Str) :
    heapGet (vst7 h r s t f o).1 (vst5 h r s t f o).2 =
      jsSort (commentCmp o) (filteredTopLevel (heapGet h r) s t f) := by
  have hp1 : Preserves (vst5 h r s t f o).1 (vst6 h r s t f o).1 :=
    preserves_alloc _ _
  have hp2 : Preserves (vst5 h r s t f o).1 (vst7 h r s t f o).1 := by
    refine preserves_set hp1 ?_ _
    show (vst5 h r s t f o).1.arrays.length ≤ (vst6 h r s t f o).2
    exact Nat.le_refl _
  rw [preserves_getD hp2 (vst5_ok h r s t f o).hi]
  exact (vst5_ok h r s t f o).val

theorem cst1_ok (h : Heap) (r : Nat) :
    StOK h (cst1 h r) ((heapGet h r).filter fun c => isTopLevel c) :=
  stageFilter_stOK0 (preserves_refl h) (fun c => isTopLevel c) r

theorem cst2_ok (h : Heap) (r : Nat) :
    StOK h (cst2 h r)
      (((heapGet h r).filter fun c => isTopLevel c).filter
        fun c => !(textHasInternal c)) :=
  stageFilter_stOK (cst1_ok h r) fun c => !(textHasInternal c)

theorem cst3_ok (h : Heap) (r : Nat) :
    StOK h (cst3 h r)
      (((heapGet h r).filter fun c => isTopLevel c).filter
        fun c => textHasInternal c) := by
  have H := stageFilter_stOK0 (cst2_ok h r).pres
    (fun c => textHasInternal c) (cst1 h r).2
  have hg : heapGet (cst2 h r).1 (cst1 h r).2 =
      (heapGet h r).filter fun c => isTopLevel c := by
    have hp : Preserves (cst1 h r).1 (cst2 h r).1 := preserves_alloc _ _
    rw [preserves_getD hp (cst1_ok h r).hi]
    exact (cst1_ok h r).val
  rwa [hg] at H

theorem cst1_val_stable (h : Heap) (r : Nat) :
    heapGet (cst3 h r).1 (cst1 h r).2 =
      (heapGet h r).filter fun c => isTopLevel c := by
  have hp : Preserves (cst1 h r).1 (cst3 h r).1 :=
    preserves_trans (preserves_alloc _ _) (preserves_alloc _ _)
  rw [preserves_getD hp (cst1_ok h r).hi]
  exact (cst1_ok h r).val

theorem cst2_val_stable (h : Heap) (r : Nat) :
    heapGet (cst3 h r).1 (cst2 h r).2 =
      ((heapGet h r).filter fun c => isTopLevel c).filter
        fun c => !(textHasInternal c) := by
  have hp : Preserves (cst2 h r).1 (cst3 h r).1 := preserves_alloc _ _
  rw [preserves_getD hp (cst2_ok h r).hi]
  exact (cst2_ok h r).val

/-- C9: none of the three operations mutates its input: every array present
in the heap before a call — in particular the `comments` array — is intact
afterwards (the in-place sorts hit only arrays freshly allocated by
`filter`), and each heap-level result agrees with the pure function of the
input snapshot (records are immutable values here because the source never
writes a comment field, and each output element is a fresh spread-copy). -/
theorem view_no_mutation :
    (∀ (h : Heap) (r : Nat) (s t : Str) (f : CommentFilters) (o : Str),
       r < h.arrays.length →
         (getTopLevelCommentsHeap h r s t f o).1.arrays.take h.arrays.length =
             h.arrays
           ∧ (getTopLevelCommentsHeap h r s t f o).2 =
               getTopLevelComments (heapGet h r) s t f o)
    ∧ (∀ (h : Heap) (r : Nat) (pid : Str),
        (getRepliesHeap h r pid).1.arrays.take h.arrays.length = h.arrays
          ∧ heapGet (getRepliesHeap h r pid).1 (getRepliesHeap h r pid).2 =
              getRepliesOp (heapGet h r) pid)
    ∧ (∀ (h : Heap) (r : Nat),
        (getCommentCountsHeap h r).1.arrays.take h.arrays.length = h.arrays
          ∧ (getCommentCountsHeap h r).2 = getCommentCounts (heapGet h r)) := by
  refine ⟨?_, ?_, ?_⟩
  · intro h r s t f o hr
    constructor
    · exact (vst7_ok h r s t f o hr).pres.2
    · show (heapGet (vst7 h r s t f o).1 (vst5 h r s t f o).2).map _ = _
      rw [vst5_val_stable h r s t f o, (vst7_ok h r s t f o hr).val]
      rfl
  · intro h r pid
    have H := stageFilter_stOK0 (preserves_refl h)
      (fun c => c.parentId == some pid) r
    exact ⟨H.pres.2, H.val⟩
  · intro h r
    constructor
    · exact (cst3_ok h r).pres.2
    · show ((cst3 h r).1, _).2 = getCommentCounts (heapGet h r)
      show ({ all := (heapGet (cst3 h r).1 (cst1 h r).2).length
              public := (heapGet (cst3 h r).1 (cst2 h r).2).length
              internal := (heapGet (cst3 h r).1 (cst3 h r).2).length } :
        CommentCounts) = getCommentCounts (heapGet h r)
      rw [cst1_val_stable h r, cst2_val_stable h r, (cst3_ok h r).val]
      rfl

/-! ### Witnesses -/

theorem numbering_witness :
    (∃ i : Fin (numberingList scC).length,
        ((numberingList scC).get i).id =
            ({ base := cA1, commentNumber := 2 } : NumberedComment).base.id
          ∧ ({ base := cA1, commentNumber := 2 } : NumberedComment).commentNumber =
              (i : Int) + 1
          ∧ ∀ j : Fin (numberingList scC).length, (j : Nat) < (i : Nat) →
              ((numberingList scC).get j).id ≠
                ({ base := cA1, commentNumber := 2 } : NumberedComment).base.id)
      ∧ ({ base := cA3, commentNumber := 0 } : NumberedComment).commentNumber = 0 :=
  ⟨(view_numbering_stable.2.2.1 scC [] "all".toList f0 "timecode".toList
      { base := cA1, commentNumber := 2 } (by decide) (by decide)).1 (by decide),
   (view_numbering_stable.2.2.1 scC [] "all".toList f0 "timecode".toList
      { base := cA3, commentNumber := 0 } (by decide) (by decide)).2 (by decide)⟩

theorem attachments_witness :
    (getTopLevelComments [cAtt, cA1] [] "all".toList fAtt "timecode".toList).all
        (fun x =>
          match x.base.attachments with
          | some l => decide (1 ≤ l.length)
          | none => false) = true
      ∧ getTopLevelComments scA [] "all".toList fUnread "timecode".toList =
          getTopLevelComments scA [] "all".toList f0 "timecode".toList :=
  ⟨view_attachments_toggle_correct.1 [cAtt, cA1] [] "all".toList fAtt
      "timecode".toList rfl,
   view_attachments_toggle_correct.2 scA [] "all".toList fUnread f0
      "timecode".toList rfl⟩

theorem partition_witness :
    ((((getTopLevelComments csW [] "all".toList f0 "timecode".toList).map
          fun x => x.base) ++
        ((getTopLevelComments csW [] "all".toList f0 "timecode".toList).flatMap
           fun x => getRepliesOp csW x.base.id)).Perm csW
      ↔ ∀ r ∈ csW, ∀ p : Str, r.parentId = some p →
          p ∈ (getTopLevelComments csW [] "all".toList f0 "timecode".toList).map
            fun x => x.base.id) :=
  reply_partition_correct.1 csW f0 "timecode".toList (by decide) rfl

theorem fallback_witness :
    getTopLevelComments scA [] "all".toList f0 "bogus".toList =
        getTopLevelComments scA [] "all".toList f0 "timecode".toList
      ∧ getTopLevelComments scA [] "bogus".toList f0 "timecode".toList =
          getTopLevelComments scA [] "all".toList f0 "timecode".toList :=
  ⟨totality_and_fallbacks.2.1 scA [] "all".toList f0 "bogus".toList
      (by decide) (by decide) (by decide),
   totality_and_fallbacks.2.2 scA [] f0 "timecode".toList "bogus".toList
      (by decide) (by decide)⟩

theorem no_mutation_witness :
    (getTopLevelCommentsHeap ⟨[scA]⟩ 0 [] "all".toList f0
        "timecode".toList).1.arrays.take (Heap.mk [scA]).arrays.length =
        (Heap.mk [scA]).arrays
      ∧ (getTopLevelCommentsHeap ⟨[scA]⟩ 0 [] "all".toList f0
          "timecode".toList).2 =
          getTopLevelComments (heapGet ⟨[scA]⟩ 0) [] "all".toList f0
            "timecode".toList :=
  view_no_mutation.1 ⟨[scA]⟩ 0 [] "all".toList f0 "timecode".toList (by decide)

end ShotSync
